import Mathlib

/-!
Verification development for the local indexing and search subsystem of the
intra-mart user-definition viewer (TypeScript sources under src/).

Strings are shallowly embedded as lists of characters; JavaScript string
methods used by the code (toLowerCase, indexOf, split, substring, trim,
includes, join) are translated below.  The FlexSearch engine and the
IndexedDB storage engine are third-party components; the service code around
them is translated faithfully, while the engine behaviours the code relies on
(per-field result lists truncated to the requested limit, records returned in
primary-key order) enter the statements as explicit inputs or hypotheses.
-/

/-- Model of String.prototype.toLowerCase, ASCII range. -/
def lowerStr (l : List Char) : List Char := l.map Char.toLower

/-- Characters treated as whitespace by String.prototype.trim. -/
def isWsChar (c : Char) : Bool :=
  (c == ' ') || (c == '\t') || (c == '\n') || (c == '\r')

/-- Model of String.prototype.trim. -/
def trimChars (l : List Char) : List Char :=
  ((l.dropWhile isWsChar).reverse.dropWhile isWsChar).reverse

/-- Model of String.prototype.split with a single-character separator. -/
def splitOnC (sep : Char) : List Char → List (List Char)
  | [] => [[]]
  | c :: t =>
    match splitOnC sep t with
    | [] => [[]]
    | cur :: rest => if c = sep then [] :: cur :: rest else (c :: cur) :: rest

/-- Does the pattern occur at the start of the haystack? -/
def matchesHere (hay pat : List Char) : Bool := hay.take pat.length = pat

/-- Model of String.prototype.indexOf: index of the first occurrence of
pat inside hay, if any. -/
def findSubstrIdx (hay pat : List Char) : Option Nat :=
  if matchesHere hay pat then some 0
  else
    match hay with
    | [] => none
    | _ :: t => (findSubstrIdx t pat).map (· + 1)

/-- Model of String.prototype.includes. -/
def containsSub (hay pat : List Char) : Bool := (findSubstrIdx hay pat).isSome

/-- The suffix of a text after its last newline character (the text "since
the last newline"; the whole text when it has no newline). -/
def lastSeg : List Char → List Char
  | [] => []
  | c :: t => if '\n' ∈ (c :: t) then lastSeg t else c :: t

/-- Data model, from src/src/lib/types/user-definition.types.ts:
the elementProperties object of a definition payload.  Absent optional
fields are modelled as none (JSON.stringify omits them). -/
structure ElementProperties where
  query : Option (List Char)
  queryType : Option (List Char)
  databaseType : Option (List Char)
  connectId : Option (List Char)
  limitation : Option Bool
  script : Option (List Char)
deriving DecidableEq, Repr

/-- The definition payload (UserDefinitionData).  The open-ended
input/output data dictionaries are modelled as string maps. -/
structure UserDefinitionData where
  elementId : List Char
  iconId : Option (List Char)
  elementProperties : ElementProperties
  inputDataDefinition : Option (List (List Char × List Char))
  outputDataDefinition : Option (List (List Char × List Char))
deriving DecidableEq, Repr

/-- A user definition (the "document" of the spec). -/
structure UserDefinition where
  definitionId : List Char
  version : Int
  categoryId : List Char
  definitionType : List Char
  definitionName : List Char
  sortNumber : Int
  definitionData : UserDefinitionData
  localize : List (List Char × List Char)
deriving DecidableEq, Repr

/-- A JSON string literal (escaping not modelled). -/
def jstr (s : List Char) : List Char := '"' :: (s ++ ['"'])

/-- The separator between a JSON key and its value. -/
def colonSep : List Char := ": ".data

/-- One serialized key/value field. -/
def jfield (name : List Char) (v : List Char) : List Char :=
  jstr name ++ (colonSep ++ v)

/-- Optional string field: JSON.stringify skips absent (undefined) keys. -/
def joptStr (name : List Char) : Option (List Char) → List (List Char)
  | none => []
  | some s => [jfield name (jstr s)]

/-- Optional boolean field. -/
def joptBool (name : List Char) : Option Bool → List (List Char)
  | none => []
  | some true => [jfield name ("true".data)]
  | some false => [jfield name ("false".data)]

/-- Serialization of a string map. -/
def jmap (m : List (List Char × List Char)) : List Char :=
  '{' :: (List.intercalate (", ".data) (m.map (fun p => jfield p.1 (jstr p.2))) ++ ['}'])

/-- Optional string-map field. -/
def joptMap (name : List Char) : Option (List (List Char × List Char)) → List (List Char)
  | none => []
  | some m => [jfield name (jmap m)]

/-- Serialization of elementProperties, keys in declaration order. -/
def jsonOfProps (p : ElementProperties) : List Char :=
  '{' :: (List.intercalate (", ".data)
    (joptStr ("query".data) p.query ++ joptStr ("queryType".data) p.queryType ++
     joptStr ("databaseType".data) p.databaseType ++ joptStr ("connectId".data) p.connectId ++
     joptBool ("limitation".data) p.limitation ++ joptStr ("script".data) p.script) ++ ['}'])

/-- Model of JSON.stringify(definitionData, null, 2): a deterministic
textual serialization of the full payload with a stable key order
(indentation and character escaping are not modelled). -/
def stringifyData (dd : UserDefinitionData) : List Char :=
  '{' :: (List.intercalate (", ".data)
    ([jfield ("elementId".data) (jstr dd.elementId)] ++
     joptStr ("iconId".data) dd.iconId ++
     [jfield ("elementProperties".data) (jsonOfProps dd.elementProperties)] ++
     joptMap ("inputDataDefinition".data) dd.inputDataDefinition ++
     joptMap ("outputDataDefinition".data) dd.outputDataDefinition) ++ ['}'])

/-- JavaScript truthiness of an optional string: present and non-empty. -/
def truthyStr : Option (List Char) → Bool
  | none => false
  | some s => !s.isEmpty

/-- extractDefinitionContent, from src/src/lib/user-definition-parser.ts:
the query text for sql definitions with a (truthy) query, the script text
for javascript definitions with a (truthy) script, otherwise the
stringified payload. -/
def extractDefinitionContent (d : UserDefinition) : List Char :=
  if d.definitionType = ("sql".data) ∧ truthyStr d.definitionData.elementProperties.query then
    d.definitionData.elementProperties.query.getD []
  else if d.definitionType = ("javascript".data) ∧ truthyStr d.definitionData.elementProperties.script then
    d.definitionData.elementProperties.script.getD []
  else
    stringifyData d.definitionData

/-- The two searchable fields the service exposes to callers
(search-index.service.ts, SearchResult.matches.field). -/
inductive SearchField
  | definitionName
  | content
deriving DecidableEq, Repr

/-- One match entry of a search result. -/
structure MatchEntry where
  field : SearchField
  snippet : List Char
  lineNumber : Option Nat
  column : Option Nat
  matchLength : Option Nat
deriving DecidableEq, Repr

/-- A formatted search result. -/
structure SearchResult where
  definition : UserDefinition
  «matches» : List MatchEntry
  score : Nat
deriving DecidableEq, Repr

/-- The options object of SearchIndexService.search. -/
structure SearchOptions where
  limit : Option Nat
  fields : Option (List SearchField)
  definitionType : Option (List Char)
  categoryId : Option (List Char)
deriving DecidableEq, Repr

/-- The limit with its default of 50 (line "const : limit = 50 :"). -/
def effLimit (o : SearchOptions) : Nat := o.limit.getD 50

/-- The fields handed to the engine: the caller's fields when given,
otherwise definitionName and content. -/
def searchFieldsOf (o : SearchOptions) : List SearchField :=
  o.fields.getD [SearchField.definitionName, SearchField.content]

/-- A raw engine hit (only its id is consulted by the service). -/
structure RawItem where
  id : List Char
deriving DecidableEq, Repr

/-- One per-field result group as returned by the engine. -/
structure FieldResult where
  field : SearchField
  result : List RawItem
deriving DecidableEq, Repr

/-- The record a document contributes to the engine index. -/
structure SearchDocument where
  definitionId : List Char
  definitionName : List Char
  content : List Char
  categoryId : List Char
  definitionType : List Char
deriving DecidableEq, Repr

/-- The SearchDocument built for a definition in buildIndex. -/
def toSearchDocument (d : UserDefinition) : SearchDocument :=
  ⟨d.definitionId, d.definitionName, extractDefinitionContent d, d.categoryId, d.definitionType⟩

/-- The snippet-with-position record. -/
structure SnippetInfo where
  snippet : List Char
  lineNumber : Option Nat
  column : Option Nat
deriving DecidableEq, Repr

/-- createSnippetWithPosition, from search-index.service.ts: find the first
case-insensitive occurrence of the query in the text; if none, return a
head-truncated snippet with no position; otherwise report the 1-based line
(split of the text before the match on newline) and column (length of the
last such line plus 1) and a snippet of about contextLength characters
around the match, with ellipses where truncated. -/
def createSnippetWithPosition (text query : List Char) (contextLength : Nat) : SnippetInfo :=
  match findSubstrIdx (lowerStr text) (lowerStr query) with
  | none => ⟨text.take contextLength ++ ("...".data), none, none⟩
  | some index =>
    let textBeforeMatch := text.take index
    let lines := splitOnC '\n' textBeforeMatch
    let lineNumber := lines.length
    let column := (lines.getLastD []).length + 1
    let startIdx := index - contextLength / 2
    let endIdx := min text.length (index + query.length + contextLength / 2)
    let snip0 := (text.take endIdx).drop startIdx
    let snip1 := if 0 < startIdx then ("...".data) ++ snip0 else snip0
    let snip2 := if endIdx < text.length then snip1 ++ ("...".data) else snip1
    ⟨snip2, some lineNumber, some column⟩

/-- JS Map.get over the association-list model of definitionsMap. -/
def mapGet (m : List (List Char × UserDefinition)) (k : List Char) : Option UserDefinition :=
  (m.find? (fun p => p.1 = k)).map Prod.snd

/-- JS Map.set: replace in place when the key exists, append otherwise. -/
def mapSet (m : List (List Char × UserDefinition)) (k : List Char) (v : UserDefinition) :
    List (List Char × UserDefinition) :=
  if m.any (fun p => p.1 = k) then m.map (fun p => if p.1 = k then (k, v) else p)
  else m ++ [(k, v)]

namespace SearchIndexService

/-- The mutable state of the SearchIndexService singleton: the FlexSearch
index (none until initIndex creates it) modelled by the list of added
search documents, the definitionsMap, and the isIndexed flag. -/
structure State where
  index : Option (List SearchDocument)
  definitionsMap : List (List Char × UserDefinition)
  isIndexed : Bool
deriving DecidableEq, Repr

/-- The state at construction. -/
def initState : State := ⟨none, [], false⟩

/-- initIndex creates the engine index only when absent, so the entries of
an existing index are kept; this returns the entry list buildIndex starts
from. -/
def initIndexEntries (s : State) : List SearchDocument :=
  s.index.getD []

/-- FlexSearch Document.add for a store-backed index: adding an id that is
already registered updates it (the old entry is removed), otherwise the
entry is appended. -/
def flexAdd (e : List SearchDocument) (sd : SearchDocument) : List SearchDocument :=
  e.filter (fun x => !(x.definitionId = sd.definitionId : Bool)) ++ [sd]

/-- buildIndex, from search-index.service.ts: initIndex, clear the
definitionsMap, then for every definition store it in the map and add its
SearchDocument to the engine; finally set isIndexed. -/
def buildIndex (s : State) (definitions : List UserDefinition) : State :=
  ⟨some (definitions.foldl (fun e d => flexAdd e (toSearchDocument d)) (initIndexEntries s)),
   definitions.foldl (fun m d => mapSet m d.definitionId d) [],
   true⟩

/-- clear, from search-index.service.ts: drop the index, empty the map,
reset isIndexed. -/
def clear : State := ⟨none, [], false⟩

/-- isReady, from search-index.service.ts. -/
def isReady (s : State) : Bool := s.isIndexed

/-- The type filter: skip when a (truthy) definitionType option is given
and the definition's type differs. -/
def typeSkip (opts : SearchOptions) (d : UserDefinition) : Bool :=
  match opts.definitionType with
  | none => false
  | some t => if t = [] then false else !(d.definitionType = t : Bool)

/-- The category filter, same shape. -/
def catSkip (opts : SearchOptions) (d : UserDefinition) : Bool :=
  match opts.categoryId with
  | none => false
  | some c => if c = [] then false else !(d.categoryId = c : Bool)

/-- The SearchResult pushed for a surviving hit: snippet over the matched
field's text, matchLength is the query length, score is 1. -/
def mkResult (defn : UserDefinition) (f : SearchField) (query : List Char) : SearchResult :=
  let content := match f with
    | SearchField.content => extractDefinitionContent defn
    | SearchField.definitionName => defn.definitionName
  let mi := createSnippetWithPosition content query 100
  ⟨defn, [⟨f, mi.snippet, mi.lineNumber, mi.column, some query.length⟩], 1⟩

/-- The body of the inner result loop of search: skip ids already seen,
ids that do not hydrate, and ids removed by the type/category filters;
otherwise record the id as seen and push a result. -/
def processItem (m : List (List Char × UserDefinition)) (query : List Char)
    (opts : SearchOptions) (f : SearchField)
    (st : List SearchResult × List (List Char)) (item : RawItem) :
    List SearchResult × List (List Char) :=
  if item.id ∈ st.2 then st
  else
    match mapGet m item.id with
    | none => st
    | some defn =>
      if typeSkip opts defn then st
      else if catSkip opts defn then st
      else (st.1 ++ [mkResult defn f query], st.2 ++ [item.id])

/-- The inner loop over one field's raw results. -/
def processItems (m : List (List Char × UserDefinition)) (query : List Char)
    (opts : SearchOptions) (f : SearchField) (items : List RawItem)
    (st : List SearchResult × List (List Char)) :
    List SearchResult × List (List Char) :=
  items.foldl (processItem m query opts f) st

/-- The outer loop over the engine's per-field results. -/
def processFieldResults (m : List (List Char × UserDefinition)) (query : List Char)
    (opts : SearchOptions) (raw : List FieldResult)
    (st : List SearchResult × List (List Char)) :
    List SearchResult × List (List Char) :=
  raw.foldl (fun st fr => processItems m query opts fr.field fr.result st) st

/-- The formatted results of search for a given raw engine response. -/
def processResults (m : List (List Char × UserDefinition)) (query : List Char)
    (opts : SearchOptions) (raw : List FieldResult) : List SearchResult :=
  (processFieldResults m query opts raw ([], [])).1

/-- The message of the not-ready error thrown by search. -/
def indexNotReadyMsg : List Char :=
  "Search index not initialized. Call buildIndex first.".data

/-- search, from search-index.service.ts: throw when the index is absent or
not built; otherwise format the engine's raw response (an explicit input
here: the engine is external).  The engine is queried with searchFieldsOf
opts and effLimit opts. -/
def search (s : State) (query : List Char) (opts : SearchOptions)
    (raw : List FieldResult) : Except (List Char) (List SearchResult) :=
  if s.index.isSome ∧ s.isIndexed = true then
    Except.ok (processResults s.definitionsMap query opts raw)
  else
    Except.error indexNotReadyMsg

/-- The operations that drive the service state (search and the read-only
calls leave the state unchanged). -/
inductive Op
  | build (docs : List UserDefinition)
  | clearOp
  | searchOp
deriving DecidableEq, Repr

/-- One state transition. -/
def step (s : State) : Op → State
  | Op.build docs => buildIndex s docs
  | Op.clearOp => clear
  | Op.searchOp => s

/-- The state after a sequence of operations from construction. -/
def runOps (ops : List Op) : State := ops.foldl step initState

/-- Is an operation a clear? -/
def isClearOp : Op → Bool
  | Op.clearOp => true
  | _ => false

/-- Is an operation a build? -/
def isBuildOp : Op → Bool
  | Op.build _ => true
  | _ => false

/-- No buildIndex has happened since the last clear (or ever, when the
trace has no clear). -/
def noBuildSinceClear (ops : List Op) : Bool :=
  (ops.reverse.takeWhile (fun o => !isClearOp o)).all (fun o => !isBuildOp o)

end SearchIndexService

/-- The search mode of the content route. -/
inductive SearchMode
  | basic
  | advanced
deriving DecidableEq, Repr

/-- The advanced-search boolean logic. -/
inductive AdvLogic
  | andL
  | orL
deriving DecidableEq, Repr

/-- The searchable text the advanced filter inspects for one primary
result, from src/src/routes/content.tsx lines 121-126: it joins the
definition name, result.definition.sqlQuery and
result.definition.javaScriptCode — two properties that do not exist on
UserDefinition, hence undefined at runtime and replaced by the empty
string — and the snippet of every match, with single spaces, lowercased.
The definition's actual content is therefore absent from this text. -/
def searchableTextOf (r : SearchResult) : List Char :=
  lowerStr (List.intercalate (" ".data)
    ([r.definition.definitionName, [], []] ++ r.matches.map (fun m => m.snippet)))

/-- The advanced keywords: split on the semicolon, trim and lowercase each,
drop empties (content.tsx lines 113-116). -/
def keywordsOf (advq : List Char) : List (List Char) :=
  ((splitOnC ';' advq).map (fun k => lowerStr (trimChars k))).filter (fun k => k.length > 0)

/-- The advanced filtering pass (content.tsx lines 112-137): active only in
advanced mode with a non-blank advanced query and a non-empty keyword list;
AND keeps a result when its searchable text contains every keyword, OR when
it contains at least one. -/
def advancedFilter (mode : SearchMode) (advq : List Char) (logic : AdvLogic)
    (results : List SearchResult) : List SearchResult :=
  if mode = SearchMode.advanced ∧ trimChars advq ≠ [] then
    let kws := keywordsOf advq
    if kws.length > 0 then
      results.filter (fun r =>
        match logic with
        | AdvLogic.andL => kws.all (fun k => containsSub (searchableTextOf r) k)
        | AdvLogic.orL => kws.any (fun k => containsSub (searchableTextOf r) k))
    else results
  else results

/-- The outcome of one orchestrated search: the published results and
whether the search engine was invoked at all. -/
structure PerformOutcome where
  results : List SearchResult
  engineInvoked : Bool
deriving DecidableEq, Repr

/-- performSearch, from src/src/routes/content.tsx lines 95-146: blank or
shorter-than-2 queries publish an empty result set without touching the
engine; otherwise the engine is asked with limit 1000 and the optional
type/category filters (already mapped from the route state, where the
value all stands for no filter), the advanced pass refines the results,
and an engine error is caught and published as an empty result set. -/
def performSearch (s : SearchIndexService.State) (raw : List FieldResult)
    (searchQuery : List Char) (filterType : Option (List Char))
    (selCategory : Option (List Char)) (mode : SearchMode) (advq : List Char)
    (logic : AdvLogic) : PerformOutcome :=
  if trimChars searchQuery = [] ∨ searchQuery.length < 2 then ⟨[], false⟩
  else
    match SearchIndexService.search s searchQuery ⟨some 1000, none, filterType, selCategory⟩ raw with
    | Except.error _ => ⟨[], true⟩
    | Except.ok rs => ⟨advancedFilter mode advq logic rs, true⟩

namespace IndexedDBService

/-- An IndexedDB put into the definitions store upserts by the primary key
definitionId; this folds a chronological list of puts into the stored
record set (order of this list is not observable: reads sort by key). -/
def dedupPuts (puts : List UserDefinition) : List UserDefinition :=
  puts.foldl
    (fun recs d => recs.filter (fun r => !(r.definitionId = d.definitionId : Bool)) ++ [d]) []

/-- The relation the engine sorts records by when reading through the
categoryId index: within one category, ascending primary key. -/
def idLe (a b : UserDefinition) : Prop := a.definitionId ≤ b.definitionId

/-- The comparator passed to Array.prototype.sort in
getDefinitionsByCategory: ascending sortNumber. -/
def snLe (a b : UserDefinition) : Prop := a.sortNumber ≤ b.sortNumber

instance : DecidableRel idLe :=
  fun a b => inferInstanceAs (Decidable (a.definitionId ≤ b.definitionId))

instance : DecidableRel snLe :=
  fun a b => inferInstanceAs (Decidable (a.sortNumber ≤ b.sortNumber))

/-- getAll on the categoryId index: the matching records, in primary-key
order (the IndexedDB contract for index.getAll). -/
def indexGetAll (puts : List UserDefinition) (categoryId : List Char) : List UserDefinition :=
  List.insertionSort idLe ((dedupPuts puts).filter (fun d => d.categoryId = categoryId))

/-- getDefinitionsByCategory, from src/src/lib/services/indexeddb.service.ts
lines 160-175: read the category's records through the index, then sort
them by sortNumber with the engine's stable Array.prototype.sort. -/
def getDefinitionsByCategory (puts : List UserDefinition) (categoryId : List Char) :
    List UserDefinition :=
  List.insertionSort snLe (indexGetAll puts categoryId)

end IndexedDBService

/-- A sample definition used by concrete instances below. -/
def mkDoc (id name cat ty : List Char) (sn : Int)
    (q s : Option (List Char)) : UserDefinition :=
  ⟨id, 1, cat, ty, name, sn, ⟨"e1".data, none, ⟨q, none, none, none, none, s⟩, none, none⟩, []⟩

/-- A small sql definition with id a. -/
def docA : UserDefinition :=
  mkDoc ("a".data) ("alpha name".data) ("cat1".data) ("sql".data) 1
    (some ("select 1".data)) none

/-- A small sql definition with id b. -/
def docB : UserDefinition :=
  mkDoc ("b".data) ("beta name".data) ("cat2".data) ("sql".data) 2
    (some ("select 2".data)) none

/-- A sql definition whose query is the empty string (present but falsy). -/
def docEmptyQuery : UserDefinition :=
  mkDoc ("q0".data) ("empty".data) ("cat1".data) ("sql".data) 1 (some []) none

/-- A javascript definition with a script. -/
def docJs : UserDefinition :=
  mkDoc ("j1".data) ("js name".data) ("cat1".data) ("javascript".data) 1
    none (some ("return 1;".data))

/-- The advanced-filter scenario document: its sql query holds the second
keyword far beyond the snippet window around the primary match. -/
def docC1 : UserDefinition :=
  mkDoc ("d1".data) ("doc".data) ("cat1".data) ("sql".data) 1
    (some ("select aaaaaaaaaaaaaaaaaaaaaaaaaaaaaaaaaaaaaaaaaaaaaaaaaaaaaaaaaaaa orders".data))
    none

/-- Empty search options. -/
def noOpts : SearchOptions := ⟨none, none, none, none⟩

/-- Two puts into one category with equal sortNumber, in the insertion
order b then a. -/
def putsC9 : List UserDefinition :=
  [mkDoc ("b".data) ("nb".data) ("c".data) ("sql".data) 1 none none,
   mkDoc ("a".data) ("na".data) ("c".data) ("sql".data) 1 none none]

/-- The engine response of the advanced-filter scenario: one content hit. -/
def c1raw : List FieldResult := [⟨SearchField.content, [⟨"d1".data⟩]⟩]

/-- The service state of the advanced-filter scenario. -/
def c1state : SearchIndexService.State :=
  SearchIndexService.buildIndex SearchIndexService.initState [docC1]

/-- The primary results of the advanced-filter scenario. -/
def c1primary : List SearchResult :=
  SearchIndexService.processResults c1state.definitionsMap ("select".data)
    ⟨some 1000, none, none, none⟩ c1raw

/-- The searchable text the claim describes for the scenario's result:
document name, document content and all snippet texts, joined and
lowercased. -/
def c1claimText : List Char :=
  lowerStr (List.intercalate (" ".data)
    ([docC1.definitionName, extractDefinitionContent docC1] ++
     (c1primary.map (fun r => r.matches.map (fun mt => mt.snippet))).flatten))

/-- An engine response exceeding the limit across two fields: each field
group respects the per-field limit 1, their union does not. -/
def c2craw : List FieldResult :=
  [⟨SearchField.definitionName, [⟨"a".data⟩]⟩, ⟨SearchField.content, [⟨"b".data⟩]⟩]

/-- The search options of the limit counterexample. -/
def c2copts : SearchOptions := ⟨some 1, none, none, none⟩

/-- The result list of the limit counterexample. -/
def c2cOut : List SearchResult :=
  SearchIndexService.processResults
    (SearchIndexService.buildIndex SearchIndexService.initState [docA, docB]).definitionsMap
    ("select".data) c2copts c2craw

instance : IsTotal UserDefinition IndexedDBService.idLe :=
  ⟨fun a b => le_total a.definitionId b.definitionId⟩

instance : IsTrans UserDefinition IndexedDBService.idLe :=
  ⟨fun _ _ _ hab hbc => le_trans hab hbc⟩

instance : IsTotal UserDefinition IndexedDBService.snLe :=
  ⟨fun a b => le_total a.sortNumber b.sortNumber⟩

instance : IsTrans UserDefinition IndexedDBService.snLe :=
  ⟨fun _ _ _ hab hbc => le_trans hab hbc⟩

deriving instance DecidableEq for Except

/-- Claim C8: a query shorter than 2 characters makes performSearch publish
an empty result set without invoking the search engine, for every service
state (in particular a not-ready one) and every other input. -/
theorem claim_C8 (s : SearchIndexService.State) (raw : List FieldResult)
    (q : List Char) (ft sc : Option (List Char)) (mode : SearchMode)
    (advq : List Char) (logic : AdvLogic) (hq : q.length < 2) :
    performSearch s raw q ft sc mode advq logic = ⟨[], false⟩ := by
  unfold performSearch
  rw [if_pos (Or.inr hq)]

/-- Witness for C8 at the one-character query a, on the freshly constructed
(not ready) service state. -/
theorem claim_C8_witness :
    performSearch SearchIndexService.initState [] ("a".data) none none
      SearchMode.basic [] AdvLogic.andL = ⟨[], false⟩ :=
  claim_C8 SearchIndexService.initState [] ("a".data) none none
    SearchMode.basic [] AdvLogic.andL (by decide)

/-- Claim C7, counterexample: a sql definition whose payload carries a
query string that is present but empty.  The claim as stated demands the
query back verbatim (the empty string); the code's truthiness test sends
this case to the JSON fallback instead. -/
theorem claim_C7_counterexample :
    docEmptyQuery.definitionType = ("sql".data)
    ∧ docEmptyQuery.definitionData.elementProperties.query = some []
    ∧ extractDefinitionContent docEmptyQuery
        ≠ docEmptyQuery.definitionData.elementProperties.query.getD []
    ∧ extractDefinitionContent docEmptyQuery = stringifyData docEmptyQuery.definitionData := by
  refine ⟨rfl, rfl, ?_, by decide⟩
  decide

/-- Claim C7 as amended: extractDefinitionContent returns the payload's
query verbatim for sql definitions with a present non-empty query, the
script verbatim for javascript definitions with a present non-empty
script, and otherwise the deterministic stable-key-order serialization of
the full payload; the returned text is never empty. -/
theorem claim_C7 (d : UserDefinition) :
    (∀ q, d.definitionType = ("sql".data) →
      d.definitionData.elementProperties.query = some q → q ≠ [] →
      extractDefinitionContent d = q)
    ∧ (∀ s, d.definitionType = ("javascript".data) →
      d.definitionData.elementProperties.script = some s → s ≠ [] →
      extractDefinitionContent d = s)
    ∧ (¬(d.definitionType = ("sql".data) ∧ truthyStr d.definitionData.elementProperties.query = true) →
       ¬(d.definitionType = ("javascript".data) ∧ truthyStr d.definitionData.elementProperties.script = true) →
       extractDefinitionContent d = stringifyData d.definitionData)
    ∧ extractDefinitionContent d ≠ [] := by
  refine ⟨?_, ?_, ?_, ?_⟩
  · intro q hty hq hne
    have ht : truthyStr d.definitionData.elementProperties.query = true := by
      rw [hq]; simp [truthyStr, hne]
    unfold extractDefinitionContent
    rw [if_pos ⟨hty, ht⟩, hq]
    rfl
  · intro s hty hs hne
    have ht : truthyStr d.definitionData.elementProperties.script = true := by
      rw [hs]; simp [truthyStr, hne]
    have hnsql : ¬(d.definitionType = ("sql".data) ∧
        truthyStr d.definitionData.elementProperties.query = true) := by
      intro hcon
      rw [hty] at hcon
      exact absurd hcon.1 (by decide)
    unfold extractDefinitionContent
    rw [if_neg hnsql, if_pos ⟨hty, ht⟩, hs]
    rfl
  · intro h1 h2
    unfold extractDefinitionContent
    rw [if_neg h1, if_neg h2]
  · unfold extractDefinitionContent
    by_cases h1 : d.definitionType = ("sql".data) ∧
        truthyStr d.definitionData.elementProperties.query = true
    · rw [if_pos h1]
      rcases hq : d.definitionData.elementProperties.query with _ | q
      · rw [hq] at h1; simp [truthyStr] at h1
      · rw [hq] at h1
        have hne := h1.2
        simp [truthyStr] at hne
        intro hcon
        simp only [Option.getD] at hcon
        rw [hcon] at hne
        simp at hne
    · rw [if_neg h1]
      by_cases h2 : d.definitionType = ("javascript".data) ∧
          truthyStr d.definitionData.elementProperties.script = true
      · rw [if_pos h2]
        rcases hs : d.definitionData.elementProperties.script with _ | s
        · rw [hs] at h2; simp [truthyStr] at h2
        · rw [hs] at h2
          have hne := h2.2
          simp [truthyStr] at hne
          intro hcon
          simp only [Option.getD] at hcon
          rw [hcon] at hne
          simp at hne
      · rw [if_neg h2]
        simp [stringifyData]

/-- Witness for C7 at concrete sql, javascript and fallback definitions. -/
theorem claim_C7_witness :
    extractDefinitionContent docA = ("select 1".data)
    ∧ extractDefinitionContent docJs = ("return 1;".data)
    ∧ extractDefinitionContent docEmptyQuery = stringifyData docEmptyQuery.definitionData
    ∧ extractDefinitionContent docA ≠ [] :=
  ⟨(claim_C7 docA).1 ("select 1".data) rfl rfl (by decide),
   (claim_C7 docJs).2.1 ("return 1;".data) rfl rfl (by decide),
   (claim_C7 docEmptyQuery).2.2.1 (by decide) (by decide),
   (claim_C7 docA).2.2.2⟩

/-- Claim C1, divergence evaluation: in advanced AND mode with keywords
select and orders, the scenario result is dropped by the orchestrator
although the claim's searchable text (name, content, snippets) contains
both keywords — the code reads result.definition.sqlQuery and
result.definition.javaScriptCode, properties absent from UserDefinition,
so the content never reaches its searchable text. -/
theorem claim_C1_divergence :
    (performSearch c1state c1raw ("select".data) none none SearchMode.advanced
      ("select;orders".data) AdvLogic.andL).results = []
    ∧ (performSearch c1state c1raw ("select".data) none none SearchMode.advanced
      ("select;orders".data) AdvLogic.andL).engineInvoked = true
    ∧ (keywordsOf ("select;orders".data)).all (fun k => containsSub c1claimText k) = true
    ∧ c1primary.length = 1 := by
  refine ⟨by decide, by decide, by decide, by decide⟩

/-- Claim C2, counterexample: with limit 1 and a legitimate engine
response (each per-field group holds at most limit hits), search succeeds
with 2 results, exceeding the claimed bound of limit. -/
theorem claim_C2_counterexample :
    (c2craw.map (fun fr => fr.result.length)).all (fun n => decide (n ≤ effLimit c2copts)) = true
    ∧ SearchIndexService.search
        (SearchIndexService.buildIndex SearchIndexService.initState [docA, docB])
        ("select".data) c2copts c2craw = Except.ok c2cOut
    ∧ c2cOut.length = 2
    ∧ ¬(c2cOut.length ≤ effLimit c2copts) := by
  refine ⟨by decide, by decide, by decide, by decide⟩

/-- Claim C3, counterexample: buildIndex does not discard the prior index.
After building with one document and then rebuilding with the empty list,
the engine index still holds the first document's entry (the claim's
discard-then-index reading demands an empty entry list). -/
theorem claim_C3_counterexample :
    (SearchIndexService.buildIndex
      (SearchIndexService.buildIndex SearchIndexService.initState [docA]) []).index
      = some [toSearchDocument docA]
    ∧ some [toSearchDocument docA] ≠ some ([] : List SearchDocument) := by
  refine ⟨by decide, by decide⟩

/-- Claim C9, counterexample: two same-category documents with equal
sortNumber are put in the order b then a; the store returns them ordered
a then b (primary-key order), not in insertion order. -/
theorem claim_C9_counterexample :
    (IndexedDBService.getDefinitionsByCategory putsC9 ("c".data)).map
      (fun d => d.definitionId) = [("a".data), ("b".data)]
    ∧ (IndexedDBService.getDefinitionsByCategory putsC9 ("c".data)).map
      (fun d => d.definitionId)
      ≠ (putsC9.filter (fun d => d.categoryId = ("c".data))).map (fun d => d.definitionId) := by
  refine ⟨by decide, by decide⟩

/-- Raising an operation trace by one step from the right. -/
theorem runOps_append_one (ops : List SearchIndexService.Op) (o : SearchIndexService.Op) :
    SearchIndexService.runOps (ops ++ [o])
      = SearchIndexService.step (SearchIndexService.runOps ops) o := by
  unfold SearchIndexService.runOps
  rw [List.foldl_append]
  rfl

/-- While no build has happened since the last clear, the engine index is
absent and the isIndexed flag is down. -/
theorem notReady_invariant (ops : List SearchIndexService.Op)
    (h : SearchIndexService.noBuildSinceClear ops = true) :
    (SearchIndexService.runOps ops).index = none
    ∧ (SearchIndexService.runOps ops).isIndexed = false := by
  induction ops using List.reverseRecOn with
  | nil => exact ⟨rfl, rfl⟩
  | append_singleton ops o ih =>
    rw [runOps_append_one]
    cases o with
    | clearOp => exact ⟨rfl, rfl⟩
    | build docs =>
      exfalso
      unfold SearchIndexService.noBuildSinceClear at h
      rw [List.reverse_append] at h
      simp [SearchIndexService.isClearOp, SearchIndexService.isBuildOp] at h
    | searchOp =>
      have h2 : SearchIndexService.noBuildSinceClear ops = true := by
        unfold SearchIndexService.noBuildSinceClear at h ⊢
        rw [List.reverse_append] at h
        simpa [SearchIndexService.isClearOp, SearchIndexService.isBuildOp] using h
      exact ih h2

/-- Claim C4: on any operation trace with no successful buildIndex since
the last clear (in particular before any build at all), search fails with
the IndexNotReady error — a thrown error, not an empty result list — and
isReady reports false, whatever the query, options and engine response. -/
theorem claim_C4 (ops : List SearchIndexService.Op) (q : List Char)
    (opts : SearchOptions) (raw : List FieldResult)
    (h : SearchIndexService.noBuildSinceClear ops = true) :
    SearchIndexService.search (SearchIndexService.runOps ops) q opts raw
      = Except.error SearchIndexService.indexNotReadyMsg
    ∧ SearchIndexService.isReady (SearchIndexService.runOps ops) = false := by
  obtain ⟨h1, h2⟩ := notReady_invariant ops h
  constructor
  · unfold SearchIndexService.search
    rw [if_neg]
    intro hcon
    rw [h1] at hcon
    exact absurd hcon.1 (by decide)
  · unfold SearchIndexService.isReady
    exact h2

/-- Witness for C4: a trace that builds and then clears. -/
theorem claim_C4_witness :
    SearchIndexService.search
      (SearchIndexService.runOps
        [SearchIndexService.Op.build [docA], SearchIndexService.Op.clearOp])
      ("ab".data) noOpts []
      = Except.error SearchIndexService.indexNotReadyMsg
    ∧ SearchIndexService.isReady
      (SearchIndexService.runOps
        [SearchIndexService.Op.build [docA], SearchIndexService.Op.clearOp]) = false :=
  claim_C4 [SearchIndexService.Op.build [docA], SearchIndexService.Op.clearOp]
    ("ab".data) noOpts [] (by decide)

/-- Folding flexAdd over a document list: entries of the starting index
whose id reappears in the list are dropped (FlexSearch updates them), the
other starting entries survive in order, followed by the entries the list
itself produces. -/
theorem flexFold_closed (docs : List UserDefinition) :
    ∀ e : List SearchDocument,
      docs.foldl (fun e d => SearchIndexService.flexAdd e (toSearchDocument d)) e
      = e.filter (fun x => !(decide (x.definitionId ∈ docs.map (fun d => d.definitionId))))
        ++ docs.foldl (fun e d => SearchIndexService.flexAdd e (toSearchDocument d)) [] := by
  induction docs with
  | nil => intro e; simp
  | cons d t ih =>
    intro e
    simp only [List.foldl_cons]
    rw [ih (SearchIndexService.flexAdd e (toSearchDocument d)),
        ih (SearchIndexService.flexAdd [] (toSearchDocument d))]
    unfold SearchIndexService.flexAdd
    rw [List.filter_append, List.filter_filter, List.filter_nil, List.nil_append,
        List.append_assoc]
    have hpred : (fun a : SearchDocument =>
        !decide (a.definitionId ∈ t.map (fun d => d.definitionId)) &&
          !decide (a.definitionId = (toSearchDocument d).definitionId))
        = fun x : SearchDocument =>
          !decide (x.definitionId ∈ (d :: t).map (fun d => d.definitionId)) := by
      funext x
      by_cases h1 : x.definitionId = d.definitionId
      · simp [toSearchDocument, h1]
      · by_cases h2 : x.definitionId ∈ t.map (fun d => d.definitionId)
        · simp [toSearchDocument, h1, h2]
        · simp [toSearchDocument, h1, h2]
    rw [hpred]

/-- Every entry of a flexAdd fold comes from the starting index or from
one of the folded documents. -/
theorem mem_flexFold (docs : List UserDefinition) :
    ∀ (e : List SearchDocument) (x : SearchDocument),
      x ∈ docs.foldl (fun e d => SearchIndexService.flexAdd e (toSearchDocument d)) e →
      x ∈ e ∨ ∃ d ∈ docs, x = toSearchDocument d := by
  induction docs with
  | nil => intro e x hx; exact Or.inl hx
  | cons d t ih =>
    intro e x hx
    simp only [List.foldl_cons] at hx
    rcases ih (SearchIndexService.flexAdd e (toSearchDocument d)) x hx with h | ⟨d0, hd0, hxd⟩
    · unfold SearchIndexService.flexAdd at h
      rcases List.mem_append.mp h with h | h
      · exact Or.inl (List.mem_of_mem_filter h)
      · rcases List.mem_singleton.mp h with rfl
        exact Or.inr ⟨d, List.mem_cons_self d t, rfl⟩
    · exact Or.inr ⟨d0, List.mem_cons_of_mem d hd0, hxd⟩

/-- The fresh part of an index build only holds ids of the built
documents, so filtering those ids away empties it. -/
theorem flexFold_fresh_filter (docs : List UserDefinition) :
    (docs.foldl (fun e d => SearchIndexService.flexAdd e (toSearchDocument d)) []).filter
      (fun x => !(decide (x.definitionId ∈ docs.map (fun d => d.definitionId)))) = [] := by
  rw [List.filter_eq_nil_iff]
  intro x hx
  rcases mem_flexFold docs [] x hx with h | ⟨d0, hd0, rfl⟩
  · cases h
  · simp [toSearchDocument]
    exact ⟨d0, hd0, rfl⟩

/-- Folding the same documents into an index twice is the same as once. -/
theorem flexFold_idem (docs : List UserDefinition) (e : List SearchDocument) :
    docs.foldl (fun e d => SearchIndexService.flexAdd e (toSearchDocument d))
      (docs.foldl (fun e d => SearchIndexService.flexAdd e (toSearchDocument d)) e)
    = docs.foldl (fun e d => SearchIndexService.flexAdd e (toSearchDocument d)) e := by
  rw [flexFold_closed docs e,
      flexFold_closed docs
        (e.filter (fun x => !(decide (x.definitionId ∈ docs.map (fun d => d.definitionId)))) ++
          docs.foldl (fun e d => SearchIndexService.flexAdd e (toSearchDocument d)) [])]
  rw [List.filter_append, List.filter_filter, flexFold_fresh_filter]
  have hself : (fun a : SearchDocument =>
      !(decide (a.definitionId ∈ docs.map (fun d => d.definitionId))) &&
        !(decide (a.definitionId ∈ docs.map (fun d => d.definitionId))))
      = fun a : SearchDocument =>
        !(decide (a.definitionId ∈ docs.map (fun d => d.definitionId))) := by
    funext a
    exact Bool.and_self _
  rw [hself, List.append_nil]

/-- Claim C3 as amended: buildIndex reuses an existing engine index,
upserting by id (the counterexample shows stale entries survive a
rebuild), and rebuilds the hydration map from scratch; running buildIndex
twice in a row with the same document list leaves the service state — and
hence every search outcome — identical to a single build. -/
theorem claim_C3 (s : SearchIndexService.State) (docs : List UserDefinition) :
    SearchIndexService.buildIndex (SearchIndexService.buildIndex s docs) docs
      = SearchIndexService.buildIndex s docs
    ∧ ∀ (q : List Char) (opts : SearchOptions) (raw : List FieldResult),
        SearchIndexService.search
          (SearchIndexService.buildIndex (SearchIndexService.buildIndex s docs) docs) q opts raw
        = SearchIndexService.search (SearchIndexService.buildIndex s docs) q opts raw := by
  have hidem : SearchIndexService.buildIndex (SearchIndexService.buildIndex s docs) docs
      = SearchIndexService.buildIndex s docs := by
    unfold SearchIndexService.buildIndex
    simp only [SearchIndexService.initIndexEntries, Option.getD_some]
    congr 1
    exact congrArg some (flexFold_idem docs (s.index.getD []))
  exact ⟨hidem, fun q opts raw => by rw [hidem]⟩

/-- A split never produces an empty list of segments. -/
theorem splitOnC_ne_nil (sep : Char) (l : List Char) : splitOnC sep l ≠ [] := by
  cases l with
  | nil => simp [splitOnC]
  | cons c t =>
    unfold splitOnC
    cases h : splitOnC sep t with
    | nil => simp
    | cons cur rest => by_cases hc : c = sep <;> simp [hc]

/-- A split has one more segment than the text has separators. -/
theorem splitOnC_length (sep : Char) (l : List Char) :
    (splitOnC sep l).length = l.count sep + 1 := by
  induction l with
  | nil => simp [splitOnC]
  | cons c t ih =>
    unfold splitOnC
    cases h : splitOnC sep t with
    | nil => exact absurd h (splitOnC_ne_nil sep t)
    | cons cur rest =>
      rw [h] at ih
      by_cases hc : c = sep
      · subst hc
        simp [List.count_cons] at ih ⊢
        omega
      · simp [hc, List.count_cons, Ne.symm hc] at ih ⊢
        omega

/-- Splitting a text free of the separator yields the text alone. -/
theorem splitOnC_no_sep (sep : Char) (l : List Char) (h : sep ∉ l) :
    splitOnC sep l = [l] := by
  induction l with
  | nil => rfl
  | cons c t ih =>
    have hc : ¬(c = sep) := fun hh => h (by simp [hh])
    have ht : sep ∉ t := fun hh => h (List.mem_cons_of_mem c hh)
    unfold splitOnC
    rw [ih ht]
    simp [hc]

/-- A text with no newline is its own last segment. -/
theorem lastSeg_of_not_mem (l : List Char) (h : '\n' ∉ l) : lastSeg l = l := by
  cases l with
  | nil => rfl
  | cons c t => simp [lastSeg, h]

/-- The last segment of a newline split is the text since the last newline. -/
theorem splitOnC_getLastD_nl (l : List Char) :
    (splitOnC '\n' l).getLastD [] = lastSeg l := by
  induction l with
  | nil => rfl
  | cons c t ih =>
    unfold splitOnC
    cases h : splitOnC '\n' t with
    | nil => exact absurd h (splitOnC_ne_nil _ _)
    | cons cur rest =>
      rw [h] at ih
      change (if c = '\n' then [] :: cur :: rest else (c :: cur) :: rest).getLastD []
        = lastSeg (c :: t)
      by_cases hc : c = '\n'
      · subst hc
        rw [if_pos rfl, List.getLastD_cons, ih]
        simp [lastSeg]
      · rw [if_neg hc]
        cases rest with
        | nil =>
          have hlen := splitOnC_length '\n' t
          rw [h] at hlen
          have hcount : t.count '\n' = 0 := by simpa using hlen.symm
          have hnot : '\n' ∉ t := by
            intro hm
            have := List.count_pos_iff.mpr hm
            omega
          have hcur : cur = t := by
            have h2 := splitOnC_no_sep '\n' t hnot
            rw [h] at h2
            injection h2
          have hnotc : '\n' ∉ (c :: t) := by
            intro hm
            rcases List.mem_cons.mp hm with hh | hh
            · exact hc hh.symm
            · exact hnot hh
          rw [lastSeg_of_not_mem (c :: t) hnotc, hcur]
          simp [List.getLastD_cons]
        | cons r rs =>
          have hmem : '\n' ∈ t := by
            have hlen := splitOnC_length '\n' t
            rw [h] at hlen
            simp at hlen
            by_contra hnot
            have : t.count '\n' = 0 := List.count_eq_zero.mpr hnot
            omega
          have hlseg : lastSeg (c :: t) = lastSeg t := by
            have : '\n' ∈ (c :: t) := List.mem_cons_of_mem c hmem
            simp [lastSeg, this]
          rw [hlseg, ← ih]
          simp [List.getLastD_cons]

/-- An indexOf hit matches at its index and at no earlier index. -/
theorem findSubstrIdx_first (hay : List Char) :
    ∀ (pat : List Char) (i : Nat), findSubstrIdx hay pat = some i →
      matchesHere (hay.drop i) pat = true ∧
      ∀ j, j < i → matchesHere (hay.drop j) pat = false := by
  induction hay with
  | nil =>
    intro pat i h
    unfold findSubstrIdx at h
    cases hb : matchesHere [] pat with
    | true =>
      rw [hb] at h
      simp at h
      subst h
      exact ⟨hb, fun j hj => absurd hj (by omega)⟩
    | false =>
      rw [hb] at h
      simp at h
  | cons c t ih =>
    intro pat i h
    unfold findSubstrIdx at h
    cases hb : matchesHere (c :: t) pat with
    | true =>
      rw [hb] at h
      simp at h
      subst h
      exact ⟨hb, fun j hj => absurd hj (by omega)⟩
    | false =>
      rw [hb] at h
      simp only [if_false, Bool.false_eq_true] at h
      cases hk : findSubstrIdx t pat with
      | none => rw [hk] at h; simp at h
      | some k =>
        rw [hk] at h
        simp at h
        subst h
        obtain ⟨h1, h2⟩ := ih pat k hk
        refine ⟨by simpa using h1, ?_⟩
        intro j hj
        cases j with
        | zero => simpa using hb
        | succ j0 =>
          rw [List.drop_succ_cons]
          exact h2 j0 (by omega)

theorem claim_C5 :
    (∀ (hay pat : List Char) (i : Nat), findSubstrIdx hay pat = some i →
      matchesHere (hay.drop i) pat = true ∧
      ∀ j, j < i → matchesHere (hay.drop j) pat = false)
    ∧ (∀ (text query : List Char) (i : Nat),
        findSubstrIdx (lowerStr text) (lowerStr query) = some i →
        (createSnippetWithPosition text query 100).lineNumber
          = some ((text.take i).count '\n' + 1)
        ∧ (createSnippetWithPosition text query 100).column
          = some ((lastSeg (text.take i)).length + 1))
    ∧ (createSnippetWithPosition ("line1\nline2 needle here\n".data) ("needle".data) 100).lineNumber
      = some 2
    ∧ (createSnippetWithPosition ("line1\nline2 needle here\n".data) ("needle".data) 100).column
      = some 7 := by
  refine ⟨fun hay => findSubstrIdx_first hay, fun text query i h => ?_, by decide, by decide⟩
  simp only [createSnippetWithPosition, h]
  constructor
  · rw [splitOnC_length]
  · rw [splitOnC_getLastD_nl]

theorem claim_C5_witness :
    (createSnippetWithPosition ("line1\nline2 needle here\n".data) ("needle".data) 100).lineNumber
      = some ((("line1\nline2 needle here\n".data).take 12).count '\n' + 1)
    ∧ (createSnippetWithPosition ("line1\nline2 needle here\n".data) ("needle".data) 100).column
      = some ((lastSeg (("line1\nline2 needle here\n".data).take 12)).length + 1) :=
  claim_C5.2.1 ("line1\nline2 needle here\n".data) ("needle".data) 12 (by decide)

/-- Every result the inner loop emits beyond its starting state comes
from an unseen item id that hydrates and passes both filters. -/
theorem processItems_mem (m : List (List Char × UserDefinition)) (q : List Char)
    (opts : SearchOptions) (f : SearchField) :
    ∀ (items : List RawItem) (st : List SearchResult × List (List Char)) (r : SearchResult),
      r ∈ (SearchIndexService.processItems m q opts f items st).1 →
      r ∈ st.1 ∨ ∃ id, id ∈ items.map RawItem.id ∧ id ∉ st.2 ∧
        mapGet m id = some r.definition ∧
        SearchIndexService.typeSkip opts r.definition = false ∧
        SearchIndexService.catSkip opts r.definition = false ∧
        r = SearchIndexService.mkResult r.definition f q := by
  intro items
  induction items with
  | nil => intro st r h; exact Or.inl h
  | cons item rest ih =>
    intro st r h
    unfold SearchIndexService.processItems at h ih
    rw [List.foldl_cons] at h
    by_cases h1 : item.id ∈ st.2
    · have hstep : SearchIndexService.processItem m q opts f st item = st := by
        simp [SearchIndexService.processItem, h1]
      rw [hstep] at h
      rcases ih st r h with hr | ⟨id, hmem, hnot, hrest⟩
      · exact Or.inl hr
      · exact Or.inr ⟨id, List.mem_cons_of_mem _ hmem, hnot, hrest⟩
    · cases hm : mapGet m item.id with
      | none =>
        have hstep : SearchIndexService.processItem m q opts f st item = st := by
          simp [SearchIndexService.processItem, h1, hm]
        rw [hstep] at h
        rcases ih st r h with hr | ⟨id, hmem, hnot, hrest⟩
        · exact Or.inl hr
        · exact Or.inr ⟨id, List.mem_cons_of_mem _ hmem, hnot, hrest⟩
      | some defn =>
        by_cases h2 : SearchIndexService.typeSkip opts defn = true
        · have hstep : SearchIndexService.processItem m q opts f st item = st := by
            simp [SearchIndexService.processItem, h1, hm, h2]
          rw [hstep] at h
          rcases ih st r h with hr | ⟨id, hmem, hnot, hrest⟩
          · exact Or.inl hr
          · exact Or.inr ⟨id, List.mem_cons_of_mem _ hmem, hnot, hrest⟩
        · by_cases h3 : SearchIndexService.catSkip opts defn = true
          · have hstep : SearchIndexService.processItem m q opts f st item = st := by
              simp [SearchIndexService.processItem, h1, hm, h2, h3]
            rw [hstep] at h
            rcases ih st r h with hr | ⟨id, hmem, hnot, hrest⟩
            · exact Or.inl hr
            · exact Or.inr ⟨id, List.mem_cons_of_mem _ hmem, hnot, hrest⟩
          · have hstep : SearchIndexService.processItem m q opts f st item
                = (st.1 ++ [SearchIndexService.mkResult defn f q], st.2 ++ [item.id]) := by
              simp [SearchIndexService.processItem, h1, hm, h2, h3]
            rw [hstep] at h
            have h2f : SearchIndexService.typeSkip opts defn = false := by
              revert h2; cases SearchIndexService.typeSkip opts defn <;> simp
            have h3f : SearchIndexService.catSkip opts defn = false := by
              revert h3; cases SearchIndexService.catSkip opts defn <;> simp
            rcases ih _ r h with hr | ⟨id, hmem, hnot, hget, ht, hc, hr⟩
            · rcases List.mem_append.mp hr with hr | hr
              · exact Or.inl hr
              · rcases List.mem_singleton.mp hr with rfl
                have hdef : (SearchIndexService.mkResult defn f q).definition = defn := rfl
                refine Or.inr ⟨item.id, List.mem_cons_self _ _, h1, ?_, ?_, ?_, ?_⟩
                · rw [hdef]; exact hm
                · rw [hdef]; exact h2f
                · rw [hdef]; exact h3f
                · rw [hdef]
            · have hnot2 : id ∉ st.2 := fun hin => hnot (List.mem_append_left _ hin)
              exact Or.inr ⟨id, List.mem_cons_of_mem _ hmem, hnot2, hget, ht, hc, hr⟩

/-- One loop body step either leaves the state unchanged (seen id, no
hydration, or a filter skip) or appends one result and marks the id. -/
theorem processItem_spec (m : List (List Char × UserDefinition)) (q : List Char)
    (opts : SearchOptions) (f : SearchField)
    (st : List SearchResult × List (List Char)) (item : RawItem) :
    ((item.id ∈ st.2 ∨ mapGet m item.id = none ∨
        (∃ defn, mapGet m item.id = some defn ∧
          (SearchIndexService.typeSkip opts defn = true ∨
           SearchIndexService.catSkip opts defn = true))) ∧
      SearchIndexService.processItem m q opts f st item = st)
    ∨ (∃ defn, item.id ∉ st.2 ∧ mapGet m item.id = some defn ∧
        SearchIndexService.typeSkip opts defn = false ∧
        SearchIndexService.catSkip opts defn = false ∧
        SearchIndexService.processItem m q opts f st item
          = (st.1 ++ [SearchIndexService.mkResult defn f q], st.2 ++ [item.id])) := by
  by_cases h1 : item.id ∈ st.2
  · exact Or.inl ⟨Or.inl h1, by simp [SearchIndexService.processItem, h1]⟩
  · cases hm : mapGet m item.id with
    | none =>
      exact Or.inl ⟨Or.inr (Or.inl rfl), by simp [SearchIndexService.processItem, h1, hm]⟩
    | some defn =>
      by_cases h2 : SearchIndexService.typeSkip opts defn = true
      · exact Or.inl ⟨Or.inr (Or.inr ⟨defn, rfl, Or.inl h2⟩),
          by simp [SearchIndexService.processItem, h1, hm, h2]⟩
      · by_cases h3 : SearchIndexService.catSkip opts defn = true
        · exact Or.inl ⟨Or.inr (Or.inr ⟨defn, rfl, Or.inr h3⟩),
            by simp [SearchIndexService.processItem, h1, hm, h2, h3]⟩
        · refine Or.inr ⟨defn, h1, rfl, ?_, ?_, ?_⟩
          · revert h2; cases SearchIndexService.typeSkip opts defn <;> simp
          · revert h3; cases SearchIndexService.catSkip opts defn <;> simp
          · simp [SearchIndexService.processItem, h1, hm, h2, h3]

/-- The seen set only grows along the inner loop. -/
theorem processItems_seen_mono (m : List (List Char × UserDefinition)) (q : List Char)
    (opts : SearchOptions) (f : SearchField) :
    ∀ (items : List RawItem) (st : List SearchResult × List (List Char)) (x : List Char),
      x ∈ st.2 → x ∈ (SearchIndexService.processItems m q opts f items st).2 := by
  intro items
  induction items with
  | nil => intro st x hx; exact hx
  | cons item rest ih =>
    intro st x hx
    unfold SearchIndexService.processItems at ih ⊢
    rw [List.foldl_cons]
    rcases processItem_spec m q opts f st item with ⟨_, heq⟩ | ⟨defn, _, _, _, _, heq⟩
    · rw [heq]; exact ih st x hx
    · rw [heq]; exact ih _ x (List.mem_append_left _ hx)

/-- After the inner loop, every processed item id is either marked seen
or was skipped for lack of hydration or by a filter. -/
theorem processItems_seen_covers (m : List (List Char × UserDefinition)) (q : List Char)
    (opts : SearchOptions) (f : SearchField) :
    ∀ (items : List RawItem) (st : List SearchResult × List (List Char)) (id : List Char),
      id ∈ items.map RawItem.id →
      id ∈ (SearchIndexService.processItems m q opts f items st).2
      ∨ mapGet m id = none
      ∨ (∃ d, mapGet m id = some d ∧
          (SearchIndexService.typeSkip opts d = true ∨
           SearchIndexService.catSkip opts d = true)) := by
  intro items
  induction items with
  | nil => intro st id h; cases h
  | cons item rest ih =>
    intro st id h
    unfold SearchIndexService.processItems at ih ⊢
    rw [List.foldl_cons]
    rcases List.mem_cons.mp h with h | h
    · subst h
      rcases processItem_spec m q opts f st item with ⟨hcase, heq⟩ | ⟨defn, hnot, hm, _, _, heq⟩
      · rw [heq]
        rcases hcase with hseen | hnone | hskip
        · exact Or.inl (processItems_seen_mono m q opts f rest st item.id hseen)
        · exact Or.inr (Or.inl hnone)
        · exact Or.inr (Or.inr hskip)
      · rw [heq]
        refine Or.inl (processItems_seen_mono m q opts f rest _ item.id ?_)
        exact List.mem_append_right _ (List.mem_singleton_self _)
    · rcases processItem_spec m q opts f st item with ⟨_, heq⟩ | ⟨defn, _, _, _, _, heq⟩
      · rw [heq]; exact ih st id h
      · rw [heq]; exact ih _ id h

/-- A successful map lookup exposes its underlying entry. -/
theorem mapGet_mem (m : List (List Char × UserDefinition)) (k : List Char)
    (d : UserDefinition) (h : mapGet m k = some d) : (k, d) ∈ m := by
  unfold mapGet at h
  cases hf : m.find? (fun p => p.1 = k) with
  | none => rw [hf] at h; simp at h
  | some p =>
    rw [hf] at h
    simp at h
    have hp : p.1 = k := by simpa using List.find?_some hf
    have hmem := List.mem_of_find?_eq_some hf
    obtain ⟨p1, p2⟩ := p
    simp only at hp h
    rw [← hp, ← h]
    exact hmem

/-- In a key-consistent map, a looked-up definition carries its key as id. -/
theorem mapGet_consistent (m : List (List Char × UserDefinition))
    (hc : ∀ p ∈ m, p.2.definitionId = p.1) (k : List Char) (d : UserDefinition)
    (h : mapGet m k = some d) : d.definitionId = k := by
  simpa using hc _ (mapGet_mem m k d h)

/-- The inner loop keeps result ids distinct and inside the seen set. -/
theorem processItems_nodup (m : List (List Char × UserDefinition)) (q : List Char)
    (opts : SearchOptions) (f : SearchField)
    (hc : ∀ p ∈ m, p.2.definitionId = p.1) :
    ∀ (items : List RawItem) (st : List SearchResult × List (List Char)),
      ((st.1.map (fun r => r.definition.definitionId)).Nodup ∧
        ∀ x ∈ st.1.map (fun r => r.definition.definitionId), x ∈ st.2) →
      (((SearchIndexService.processItems m q opts f items st).1.map
          (fun r => r.definition.definitionId)).Nodup ∧
        ∀ x ∈ (SearchIndexService.processItems m q opts f items st).1.map
            (fun r => r.definition.definitionId),
          x ∈ (SearchIndexService.processItems m q opts f items st).2) := by
  intro items
  induction items with
  | nil => intro st h; exact h
  | cons item rest ih =>
    intro st hinv
    unfold SearchIndexService.processItems at ih ⊢
    rw [List.foldl_cons]
    rcases processItem_spec m q opts f st item with ⟨_, heq⟩ | ⟨defn, hnot, hm, _, _, heq⟩
    · rw [heq]; exact ih st hinv
    · rw [heq]
      refine ih _ ⟨?_, ?_⟩
      · have hid : defn.definitionId = item.id := mapGet_consistent m hc item.id defn hm
        have hdef : (SearchIndexService.mkResult defn f q).definition = defn := rfl
        rw [List.map_append]
        simp only [List.map_cons, List.map_nil, hdef, hid]
        rw [List.nodup_append]
        refine ⟨hinv.1, List.nodup_singleton _, ?_⟩
        intro a ha hb
        rcases List.mem_singleton.mp hb with rfl
        exact hnot (hinv.2 _ ha)
      · intro x hx
        rw [List.map_append] at hx
        rcases List.mem_append.mp hx with hx | hx
        · exact List.mem_append_left _ (hinv.2 x hx)
        · have hid : defn.definitionId = item.id := mapGet_consistent m hc item.id defn hm
          have hdef : (SearchIndexService.mkResult defn f q).definition = defn := rfl
          simp only [List.map_cons, List.map_nil, hdef, hid] at hx
          rcases List.mem_singleton.mp hx with rfl
          exact List.mem_append_right _ (List.mem_singleton_self _)

/-- The inner loop adds at most one result per item. -/
theorem processItems_length (m : List (List Char × UserDefinition)) (q : List Char)
    (opts : SearchOptions) (f : SearchField) :
    ∀ (items : List RawItem) (st : List SearchResult × List (List Char)),
      (SearchIndexService.processItems m q opts f items st).1.length
        ≤ st.1.length + items.length := by
  intro items
  induction items with
  | nil => intro st; simp [SearchIndexService.processItems]
  | cons item rest ih =>
    intro st
    unfold SearchIndexService.processItems at ih ⊢
    rw [List.foldl_cons]
    rcases processItem_spec m q opts f st item with ⟨_, heq⟩ | ⟨defn, _, _, _, _, heq⟩
    · rw [heq]
      have := ih st
      simp only [List.length_cons]
      omega
    · rw [heq]
      have := ih (st.1 ++ [SearchIndexService.mkResult defn f q], st.2 ++ [item.id])
      simp only [List.length_append, List.length_cons, List.length_nil] at this ⊢
      omega

/-- Every result of the outer loop beyond its starting state comes from
some field group: its id hydrates to its definition and passes the
filters, and the match is built for that group's field. -/
theorem processFieldResults_mem (m : List (List Char × UserDefinition)) (q : List Char)
    (opts : SearchOptions) :
    ∀ (raw : List FieldResult) (st : List SearchResult × List (List Char)) (r : SearchResult),
      r ∈ (SearchIndexService.processFieldResults m q opts raw st).1 →
      r ∈ st.1 ∨ ∃ fr, fr ∈ raw ∧ ∃ id, id ∈ fr.result.map RawItem.id ∧
        mapGet m id = some r.definition ∧
        SearchIndexService.typeSkip opts r.definition = false ∧
        SearchIndexService.catSkip opts r.definition = false ∧
        r = SearchIndexService.mkResult r.definition fr.field q := by
  intro raw
  induction raw with
  | nil => intro st r h; exact Or.inl h
  | cons fr rest ih =>
    intro st r h
    unfold SearchIndexService.processFieldResults at ih h
    rw [List.foldl_cons] at h
    rcases ih _ r h with hr | ⟨fr0, hfr0, rest0⟩
    · rcases processItems_mem m q opts fr.field fr.result st r hr with hr2 | ⟨id, hmem, _, hrest⟩
      · exact Or.inl hr2
      · exact Or.inr ⟨fr, List.mem_cons_self _ _, id, hmem, hrest⟩
    · exact Or.inr ⟨fr0, List.mem_cons_of_mem _ hfr0, rest0⟩

/-- The outer loop keeps result ids distinct and inside the seen set. -/
theorem processFieldResults_nodup (m : List (List Char × UserDefinition)) (q : List Char)
    (opts : SearchOptions) (hc : ∀ p ∈ m, p.2.definitionId = p.1) :
    ∀ (raw : List FieldResult) (st : List SearchResult × List (List Char)),
      ((st.1.map (fun r => r.definition.definitionId)).Nodup ∧
        ∀ x ∈ st.1.map (fun r => r.definition.definitionId), x ∈ st.2) →
      (((SearchIndexService.processFieldResults m q opts raw st).1.map
          (fun r => r.definition.definitionId)).Nodup ∧
        ∀ x ∈ (SearchIndexService.processFieldResults m q opts raw st).1.map
            (fun r => r.definition.definitionId),
          x ∈ (SearchIndexService.processFieldResults m q opts raw st).2) := by
  intro raw
  induction raw with
  | nil => intro st h; exact h
  | cons fr rest ih =>
    intro st hinv
    unfold SearchIndexService.processFieldResults at ih ⊢
    rw [List.foldl_cons]
    exact ih _ (processItems_nodup m q opts fr.field hc fr.result st hinv)

/-- The outer loop emits at most as many results as the engine response
has items in total. -/
theorem processFieldResults_length (m : List (List Char × UserDefinition)) (q : List Char)
    (opts : SearchOptions) :
    ∀ (raw : List FieldResult) (st : List SearchResult × List (List Char)),
      (SearchIndexService.processFieldResults m q opts raw st).1.length
        ≤ st.1.length + (raw.map (fun fr => fr.result.length)).sum := by
  intro raw
  induction raw with
  | nil => intro st; simp [SearchIndexService.processFieldResults]
  | cons fr rest ih =>
    intro st
    unfold SearchIndexService.processFieldResults at ih ⊢
    rw [List.foldl_cons]
    have h1 := ih (SearchIndexService.processItems m q opts fr.field fr.result st)
    have h2 := processItems_length m q opts fr.field fr.result st
    simp only [List.map_cons, List.sum_cons]
    omega

/-- A map set only contributes the new pair beyond the old entries. -/
theorem mapSet_mem (m : List (List Char × UserDefinition)) (k : List Char)
    (v : UserDefinition) :
    ∀ p ∈ mapSet m k v, p ∈ m ∨ p = (k, v) := by
  unfold mapSet
  by_cases h : (m.any (fun p => p.1 = k)) = true
  · rw [if_pos h]
    intro p hp
    rcases List.mem_map.mp hp with ⟨p0, hp0, heq⟩
    by_cases hk : p0.1 = k
    · rw [if_pos hk] at heq
      exact Or.inr heq.symm
    · rw [if_neg hk] at heq
      exact Or.inl (heq ▸ hp0)
  · rw [if_neg h]
    intro p hp
    rcases List.mem_append.mp hp with hp | hp
    · exact Or.inl hp
    · exact Or.inr (List.mem_singleton.mp hp)

/-- The hydration map build keys every definition by its own id. -/
theorem buildMap_consistent (docs : List UserDefinition) :
    ∀ (acc : List (List Char × UserDefinition)),
      (∀ p ∈ acc, p.2.definitionId = p.1) →
      ∀ p ∈ docs.foldl (fun m d => mapSet m d.definitionId d) acc,
        p.2.definitionId = p.1 := by
  induction docs with
  | nil => intro acc hacc p hp; exact hacc p hp
  | cons d t ih =>
    intro acc hacc p hp
    rw [List.foldl_cons] at hp
    refine ih (mapSet acc d.definitionId d) ?_ p hp
    intro p0 hp0
    rcases mapSet_mem acc d.definitionId d p0 hp0 with h | h
    · exact hacc p0 h
    · rw [h]

/-- The hydration map build only stores the folded definitions. -/
theorem buildMap_values (docs0 : List UserDefinition) :
    ∀ (docs : List UserDefinition) (acc : List (List Char × UserDefinition)),
      (∀ d ∈ docs, d ∈ docs0) →
      (∀ p ∈ acc, p.2 ∈ docs0) →
      ∀ p ∈ docs.foldl (fun m d => mapSet m d.definitionId d) acc, p.2 ∈ docs0 := by
  intro docs
  induction docs with
  | nil => intro acc _ hacc p hp; exact hacc p hp
  | cons d t ih =>
    intro acc hsub hacc p hp
    rw [List.foldl_cons] at hp
    refine ih (mapSet acc d.definitionId d) (fun x hx => hsub x (List.mem_cons_of_mem _ hx)) ?_ p hp
    intro p0 hp0
    rcases mapSet_mem acc d.definitionId d p0 hp0 with h | h
    · exact hacc p0 h
    · rw [h]; exact hsub d (List.mem_cons_self _ _)

/-- There are only two searchable fields, so a field list without repeats has at most two entries. -/
theorem searchField_nodup_length (l : List SearchField) (h : l.Nodup) : l.length ≤ 2 := by
  cases l with
  | nil => simp
  | cons a l1 =>
    cases l1 with
    | nil => simp
    | cons b l2 =>
      cases l2 with
      | nil => simp
      | cons c l3 =>
        exfalso
        simp only [List.nodup_cons, List.mem_cons] at h
        cases a <;> cases b <;> cases c <;> simp_all

/-- On a freshly built state, search succeeds with the formatted results. -/
theorem buildIndex_search_ok (s0 : SearchIndexService.State) (docs : List UserDefinition)
    (q : List Char) (opts : SearchOptions) (raw : List FieldResult) :
    SearchIndexService.search (SearchIndexService.buildIndex s0 docs) q opts raw
      = Except.ok (SearchIndexService.processResults
          (SearchIndexService.buildIndex s0 docs).definitionsMap q opts raw) := by
  unfold SearchIndexService.search
  rw [if_pos]
  constructor
  · simp [SearchIndexService.buildIndex]
  · rfl

/-- Claim C2 as amended: search truncates per searched field, not
globally — when every per-field group of the engine response respects the
effective limit (default 50) and fields are not repeated, the result list
holds at most 2 times the limit entries (the counterexample shows the
claimed bound of one limit fails); every returned result's definition has
the requested definitionType and the requested non-empty categoryId
whenever those filters are given; and the limit defaults to 50. -/
theorem claim_C2 :
    (∀ (s0 : SearchIndexService.State) (docs : List UserDefinition) (q : List Char)
        (opts : SearchOptions) (raw : List FieldResult) (l : List SearchResult),
      (∀ fr ∈ raw, fr.result.length ≤ effLimit opts) →
      (raw.map FieldResult.field).Nodup →
      SearchIndexService.search (SearchIndexService.buildIndex s0 docs) q opts raw
        = Except.ok l →
      l.length ≤ 2 * effLimit opts
      ∧ (∀ r ∈ l, ∀ t, opts.definitionType = some t → t ≠ [] →
          r.definition.definitionType = t)
      ∧ (∀ r ∈ l, ∀ c, opts.categoryId = some c → c ≠ [] →
          r.definition.categoryId = c))
    ∧ (∀ o : SearchOptions, o.limit = none → effLimit o = 50) := by
  constructor
  · intro s0 docs q opts raw l hlim hnd hok
    rw [buildIndex_search_ok] at hok
    injection hok with hok
    subst hok
    refine ⟨?_, ?_, ?_⟩
    · have hlen := processFieldResults_length
        (SearchIndexService.buildIndex s0 docs).definitionsMap q opts raw ([], [])
      have hsum : (raw.map (fun fr => fr.result.length)).sum
          ≤ raw.length * effLimit opts := by
        have := List.sum_le_card_nsmul (raw.map (fun fr => fr.result.length))
          (effLimit opts) ?_
        · simpa [smul_eq_mul] using this
        · intro x hx
          rcases List.mem_map.mp hx with ⟨fr, hfr, rfl⟩
          exact hlim fr hfr
      have hraw : raw.length ≤ 2 := by
        have := searchField_nodup_length (raw.map FieldResult.field) hnd
        simpa using this
      have h2 : raw.length * effLimit opts ≤ 2 * effLimit opts :=
        Nat.mul_le_mul_right _ hraw
      simp only [List.length_nil] at hlen
      unfold SearchIndexService.processResults
      omega
    · intro r hr t hts htne
      rcases processFieldResults_mem _ q opts raw ([], []) r hr with hr2 | ⟨fr, _, id, _, _, hskip, _, _⟩
      · cases hr2
      · simp [SearchIndexService.typeSkip, hts, htne] at hskip
        exact hskip
    · intro r hr c hcs hcne
      rcases processFieldResults_mem _ q opts raw ([], []) r hr with hr2 | ⟨fr, _, id, _, _, _, hskip, _⟩
      · cases hr2
      · simp [SearchIndexService.catSkip, hcs, hcne] at hskip
        exact hskip
  · intro o h
    simp [effLimit, h]

/-- Witness for C2 at a one-document build with both filters given. -/
theorem claim_C2_witness :
    (SearchIndexService.processResults
        (SearchIndexService.buildIndex SearchIndexService.initState [docA]).definitionsMap
        ("alpha".data) ⟨some 2, none, some ("sql".data), some ("cat1".data)⟩
        [⟨SearchField.definitionName, [⟨"a".data⟩]⟩]).length
      ≤ 2 * effLimit ⟨some 2, none, some ("sql".data), some ("cat1".data)⟩
    ∧ (SearchIndexService.mkResult docA SearchField.definitionName
        ("alpha".data)).definition.definitionType = ("sql".data)
    ∧ (SearchIndexService.mkResult docA SearchField.definitionName
        ("alpha".data)).definition.categoryId = ("cat1".data)
    ∧ effLimit noOpts = 50 := by
  have h := claim_C2.1 SearchIndexService.initState [docA] ("alpha".data)
    ⟨some 2, none, some ("sql".data), some ("cat1".data)⟩
    [⟨SearchField.definitionName, [⟨"a".data⟩]⟩]
    (SearchIndexService.processResults
      (SearchIndexService.buildIndex SearchIndexService.initState [docA]).definitionsMap
      ("alpha".data) ⟨some 2, none, some ("sql".data), some ("cat1".data)⟩
      [⟨SearchField.definitionName, [⟨"a".data⟩]⟩])
    (by decide) (by decide)
    (buildIndex_search_ok SearchIndexService.initState [docA] ("alpha".data)
      ⟨some 2, none, some ("sql".data), some ("cat1".data)⟩
      [⟨SearchField.definitionName, [⟨"a".data⟩]⟩])
  refine ⟨h.1, ?_, ?_, claim_C2.2 noOpts rfl⟩
  · exact h.2.1 _ (by decide) _ rfl (by decide)
  · exact h.2.2 _ (by decide) _ rfl (by decide)

/-- Claim C6: each document id appears at most once in the formatted
result list; when a document is hit in both the definitionName and the
content groups (the engine reports groups in the order the fields were
requested), its single reported match is attributed to definitionName;
and when no fields option is given the engine is asked for exactly
definitionName and content. -/
theorem claim_C6 :
    (∀ (s0 : SearchIndexService.State) (docs : List UserDefinition) (q : List Char)
        (opts : SearchOptions) (l1 l2 : List RawItem),
      ((SearchIndexService.processResults
          (SearchIndexService.buildIndex s0 docs).definitionsMap q opts
          [⟨SearchField.definitionName, l1⟩, ⟨SearchField.content, l2⟩]).map
        (fun r => r.definition.definitionId)).Nodup
      ∧ ∀ r ∈ SearchIndexService.processResults
            (SearchIndexService.buildIndex s0 docs).definitionsMap q opts
            [⟨SearchField.definitionName, l1⟩, ⟨SearchField.content, l2⟩],
          r.definition.definitionId ∈ l1.map RawItem.id →
          r.matches.map (fun mt => mt.field) = [SearchField.definitionName])
    ∧ (∀ o : SearchOptions, o.fields = none →
        searchFieldsOf o = [SearchField.definitionName, SearchField.content]) := by
  constructor
  · intro s0 docs q opts l1 l2
    have hc : ∀ p ∈ (SearchIndexService.buildIndex s0 docs).definitionsMap,
        p.2.definitionId = p.1 :=
      buildMap_consistent docs [] (fun p hp => absurd hp (List.not_mem_nil p))
    constructor
    · have h := processFieldResults_nodup
        (SearchIndexService.buildIndex s0 docs).definitionsMap q opts hc
        [⟨SearchField.definitionName, l1⟩, ⟨SearchField.content, l2⟩] ([], [])
        ⟨by simp, by simp⟩
      exact h.1
    · intro r hr hid
      unfold SearchIndexService.processResults at hr
      unfold SearchIndexService.processFieldResults at hr
      rw [List.foldl_cons, List.foldl_cons, List.foldl_nil] at hr
      rcases processItems_mem _ q opts SearchField.content l2 _ r hr with
        hrA | ⟨id, hidmem, hidnot, hget, ht, hcat, hmk⟩
      · rcases processItems_mem _ q opts SearchField.definitionName l1 _ r hrA with
          h0 | ⟨id, _, _, _, _, _, hmk⟩
        · cases h0
        · rw [hmk]; rfl
      · have hid2 : r.definition.definitionId = id :=
          mapGet_consistent _ hc id r.definition hget
        rw [hid2] at hid
        rcases processItems_seen_covers _ q opts SearchField.definitionName l1 ([], []) id hid with
          hseen | hnone | ⟨d0, hd0, hskip⟩
        · exact absurd hseen hidnot
        · rw [hget] at hnone; cases hnone
        · rw [hget] at hd0
          injection hd0 with hd0
          subst hd0
          rcases hskip with hskip | hskip
          · rw [ht] at hskip; cases hskip
          · rw [hcat] at hskip; cases hskip
  · intro o h
    simp [searchFieldsOf, h]

/-- Witness for C6 on a document hit in both field groups. -/
theorem claim_C6_witness :
    ((SearchIndexService.processResults
        (SearchIndexService.buildIndex SearchIndexService.initState [docA]).definitionsMap
        ("alpha".data) noOpts
        [⟨SearchField.definitionName, [⟨"a".data⟩]⟩, ⟨SearchField.content, [⟨"a".data⟩]⟩]).map
      (fun r => r.definition.definitionId)).Nodup
    ∧ (SearchIndexService.mkResult docA SearchField.definitionName ("alpha".data)).matches.map
        (fun mt => mt.field) = [SearchField.definitionName]
    ∧ searchFieldsOf noOpts = [SearchField.definitionName, SearchField.content] := by
  have h := claim_C6.1 SearchIndexService.initState [docA] ("alpha".data) noOpts
    [⟨"a".data⟩] [⟨"a".data⟩]
  refine ⟨h.1, ?_, claim_C6.2 noOpts rfl⟩
  exact h.2 _ (by decide) (by decide)

/-- Claim C10: every formatted result hydrates from the map built by the
most recent buildIndex — its definition is one of that call's input
documents — and a raw hit whose id is absent from the hydration map is
silently skipped: no result carries such an id, and processing stays a
total function (no error, no partial result). -/
theorem claim_C10 (s0 : SearchIndexService.State) (docs : List UserDefinition)
    (q : List Char) (opts : SearchOptions) (raw : List FieldResult) :
    (∀ r ∈ SearchIndexService.processResults
        (SearchIndexService.buildIndex s0 docs).definitionsMap q opts raw,
      r.definition ∈ docs)
    ∧ (∀ id, mapGet (SearchIndexService.buildIndex s0 docs).definitionsMap id = none →
        ∀ r ∈ SearchIndexService.processResults
            (SearchIndexService.buildIndex s0 docs).definitionsMap q opts raw,
          r.definition.definitionId ≠ id) := by
  have hc : ∀ p ∈ (SearchIndexService.buildIndex s0 docs).definitionsMap,
      p.2.definitionId = p.1 :=
    buildMap_consistent docs [] (fun p hp => absurd hp (List.not_mem_nil p))
  constructor
  · intro r hr
    rcases processFieldResults_mem _ q opts raw ([], []) r hr with
      h0 | ⟨fr, _, id, _, hget, _, _, _⟩
    · cases h0
    · have hpair := mapGet_mem _ id r.definition hget
      have := buildMap_values docs docs [] (fun d hd => hd)
        (fun p hp => absurd hp (List.not_mem_nil p)) (id, r.definition) hpair
      simpa using this
  · intro id hnone r hr hcon
    rcases processFieldResults_mem _ q opts raw ([], []) r hr with
      h0 | ⟨fr, _, id0, _, hget, _, _, _⟩
    · cases h0
    · have hid0 : r.definition.definitionId = id0 :=
        mapGet_consistent _ hc id0 r.definition hget
      rw [hcon] at hid0
      rw [← hid0] at hget
      rw [hget] at hnone
      cases hnone

/-- Witness for C10 with one hydrating hit and one unknown id. -/
theorem claim_C10_witness :
    (SearchIndexService.mkResult docA SearchField.definitionName ("alpha".data)).definition ∈ [docA]
    ∧ (SearchIndexService.mkResult docA SearchField.definitionName
        ("alpha".data)).definition.definitionId ≠ ("zz".data) := by
  have h := claim_C10 SearchIndexService.initState [docA] ("alpha".data) noOpts
    [⟨SearchField.definitionName, [⟨"a".data⟩, ⟨"zz".data⟩]⟩]
  exact ⟨h.1 _ (by decide), h.2 ("zz".data) (by decide) _ (by decide)⟩


/-- Inserting an element that originally precedes a sorted list into it
keeps the list lexicographically ordered by key and then original order. -/
theorem orderedInsert_pairwise_lex (S : UserDefinition → UserDefinition → Prop) :
    ∀ (M : List UserDefinition) (x : UserDefinition),
      List.Sorted IndexedDBService.snLe M →
      M.Pairwise (fun a b => a.sortNumber < b.sortNumber ∨
        (a.sortNumber = b.sortNumber ∧ S a b)) →
      (∀ y ∈ M, S x y) →
      (List.orderedInsert IndexedDBService.snLe x M).Pairwise
        (fun a b => a.sortNumber < b.sortNumber ∨
          (a.sortNumber = b.sortNumber ∧ S a b)) := by
  intro M
  induction M with
  | nil => intro x _ _ _; simp
  | cons b t ih =>
    intro x hsort hpair hS
    simp only [List.orderedInsert]
    by_cases hle : IndexedDBService.snLe x b
    · rw [if_pos hle]
      refine List.pairwise_cons.mpr ⟨?_, hpair⟩
      intro z hz
      rcases List.mem_cons.mp hz with rfl | hz
      · rcases lt_or_eq_of_le hle with h | h
        · exact Or.inl h
        · exact Or.inr ⟨h, hS z (List.mem_cons_self _ _)⟩
      · have hbz : IndexedDBService.snLe b z := (List.sorted_cons.mp hsort).1 z hz
        rcases lt_or_eq_of_le (le_trans hle hbz) with h | h
        · exact Or.inl h
        · exact Or.inr ⟨h, hS z (List.mem_cons_of_mem _ hz)⟩
    · rw [if_neg hle]
      have hbx : b.sortNumber < x.sortNumber := not_le.mp hle
      refine List.pairwise_cons.mpr ⟨?_, ?_⟩
      · intro z hz
        rcases (List.mem_orderedInsert IndexedDBService.snLe).mp hz with rfl | hz
        · exact Or.inl hbx
        · exact (List.pairwise_cons.mp hpair).1 z hz
      · exact ih x (List.sorted_cons.mp hsort).2 (List.pairwise_cons.mp hpair).2
          (fun y hy => hS y (List.mem_cons_of_mem _ hy))

/-- A stable insertion sort by sortNumber orders any originally-ordered
list lexicographically by sortNumber and then the original order. -/
theorem insertionSort_pairwise_lex (S : UserDefinition → UserDefinition → Prop)
    (l : List UserDefinition) (h : l.Pairwise S) :
    (List.insertionSort IndexedDBService.snLe l).Pairwise
      (fun a b => a.sortNumber < b.sortNumber ∨
        (a.sortNumber = b.sortNumber ∧ S a b)) := by
  induction l with
  | nil => simp
  | cons x t ih =>
    simp only [List.insertionSort]
    refine orderedInsert_pairwise_lex S _ x
      (List.sorted_insertionSort IndexedDBService.snLe t)
      (ih (List.pairwise_cons.mp h).2) ?_
    intro y hy
    exact (List.pairwise_cons.mp h).1 y ((List.perm_insertionSort IndexedDBService.snLe t).subset hy)

/-- The stored record set holds one record per definitionId. -/
theorem dedupPuts_ids_nodup (puts : List UserDefinition) :
    ((IndexedDBService.dedupPuts puts).map (fun d => d.definitionId)).Nodup := by
  suffices h : ∀ (ps : List UserDefinition) (acc : List UserDefinition),
      (acc.map (fun d => d.definitionId)).Nodup →
      ((ps.foldl (fun recs d =>
          recs.filter (fun r => !(r.definitionId = d.definitionId : Bool)) ++ [d]) acc).map
        (fun d => d.definitionId)).Nodup by
    exact h puts [] (by simp)
  intro ps
  induction ps with
  | nil => intro acc hacc; exact hacc
  | cons d t ih =>
    intro acc hacc
    rw [List.foldl_cons]
    refine ih _ ?_
    rw [List.map_append, List.nodup_append]
    refine ⟨?_, by simp, ?_⟩
    · exact ((List.filter_sublist acc).map (fun d => d.definitionId)).nodup hacc
    · intro a ha hb
      simp only [List.map_cons, List.map_nil, List.mem_singleton] at hb
      subst hb
      rcases List.mem_map.mp ha with ⟨r, hr, hrid⟩
      have := List.of_mem_filter hr
      simp at this
      exact this hrid

/-- Claim C9 as amended: getDefinitionsByCategory returns exactly the
stored documents of the category (one record per id, latest put wins),
sorted ascending by sortNumber with ties broken by ascending definitionId
— the primary-key order IndexedDB hands to the stable sort — not by
insertion order (the counterexample). -/
theorem claim_C9 (puts : List UserDefinition) (categoryId : List Char) :
    (IndexedDBService.getDefinitionsByCategory puts categoryId).Perm
      ((IndexedDBService.dedupPuts puts).filter (fun d => d.categoryId = categoryId))
    ∧ List.Sorted IndexedDBService.snLe
        (IndexedDBService.getDefinitionsByCategory puts categoryId)
    ∧ (IndexedDBService.getDefinitionsByCategory puts categoryId).Pairwise
        (fun a b => a.sortNumber < b.sortNumber ∨
          (a.sortNumber = b.sortNumber ∧ a.definitionId < b.definitionId)) := by
  refine ⟨?_, ?_, ?_⟩
  · exact (List.perm_insertionSort IndexedDBService.snLe _).trans
      (List.perm_insertionSort IndexedDBService.idLe _)
  · exact List.sorted_insertionSort IndexedDBService.snLe _
  · unfold IndexedDBService.getDefinitionsByCategory IndexedDBService.indexGetAll
    apply insertionSort_pairwise_lex
    have hnF : (((IndexedDBService.dedupPuts puts).filter
        (fun d => d.categoryId = categoryId)).map (fun d => d.definitionId)).Nodup :=
      ((List.filter_sublist (IndexedDBService.dedupPuts puts)).map
        (fun d => d.definitionId)).nodup (dedupPuts_ids_nodup puts)
    have hnL : ((List.insertionSort IndexedDBService.idLe
        ((IndexedDBService.dedupPuts puts).filter
          (fun d => d.categoryId = categoryId))).map (fun d => d.definitionId)).Nodup :=
      (((List.perm_insertionSort IndexedDBService.idLe _).map
        (fun d => d.definitionId)).nodup_iff).mpr hnF
    have hpne := List.pairwise_map.mp hnL
    have hsortL := List.sorted_insertionSort IndexedDBService.idLe
      ((IndexedDBService.dedupPuts puts).filter (fun d => d.categoryId = categoryId))
    exact (List.Pairwise.and hsortL hpne).imp (fun h => lt_of_le_of_ne h.1 h.2)
